import Mathlib

/-!
# Verification of the CCometixLine segment-extraction and width-safe rendering core

Shallow embedding of the two source files of the repository:

* `src/core/segments/directory.rs` — the `DirectorySegment` and its
  `extract_directory_name` path-parsing algorithm;
* `src/main.rs` — the ANSI-aware width engine (`visible_width`,
  `truncate_to_terminal_width`) and the terminal-width resolver
  (`get_terminal_width`).

Rust strings are modelled as `List Char` (the sequence of Unicode scalar
values produced by `str::chars()`); Rust's byte-oriented `str::len` is
modelled by `byteLen` (the sum of the UTF-8 sizes of the characters).
Rust's `char::is_alphabetic` (full Unicode `Alphabetic` property) is kept
abstract: the width-engine definitions take a predicate `alpha : Char → Bool`
as a parameter, and the theorems assume only the few concrete facts about it
that the code path relies on (`alpha '[' = false`, `alpha '0' = false`,
`alpha 'm' = true`), each of which holds of Rust's `is_alphabetic`.
The `IO`-performed terminal queries of `get_terminal_width` are modelled by
an explicit environment record `WidthEnv` holding the outcome of each query.
-/

set_option autoImplicit false

namespace CCometixLine

/-! ## Width engine (src/main.rs) -/

/-- Column contribution of one character outside an escape sequence:
`if ch > '\u{FF}' { 2 } else { 1 }` (main.rs line 163 / 230). -/
def charWidth (c : Char) : Nat :=
  if 0xFF < c.toNat then 2 else 1

/-- One step of the `in_escape` flag shared by both scans in main.rs:
ESC always (re-)enters the escape state; inside an escape, an alphabetic
character leaves it; outside an escape, ordinary characters keep it off. -/
def escStep (alpha : Char → Bool) (inEsc : Bool) (c : Char) : Bool :=
  if c = '\x1b' then true
  else if inEsc then (if alpha c then false else true)
  else false

/-- Final `in_escape` state after scanning a list of characters. -/
def escStateAfter (alpha : Char → Bool) (inEsc : Bool) (t : List Char) : Bool :=
  t.foldl (escStep alpha) inEsc

/-- The character loop of `visible_width` (main.rs lines 151–167), with the
mutable `width` accumulator and `in_escape` flag made explicit. -/
def vwGo (alpha : Char → Bool) (inEsc : Bool) : List Char → Nat
  | [] => 0
  | c :: rest =>
    if c = '\x1b' then vwGo alpha true rest
    else if inEsc then
      if alpha c then vwGo alpha false rest else vwGo alpha true rest
    else charWidth c + vwGo alpha false rest

/-- `visible_width` (main.rs lines 150–168): visible-column count of a
string, ignoring ANSI escape sequences, counting characters above U+00FF
as two columns. -/
def visible_width (alpha : Char → Bool) (text : List Char) : Nat :=
  vwGo alpha false text

/-- The fixed suffix `"...\x1b[0m"` appended by the truncation loop
(main.rs line 232). -/
def truncSuffix : List Char := "...\x1b[0m".toList

/-- The truncation loop of `truncate_to_terminal_width`
(main.rs lines 216–240): copies escape sequences unconditionally, copies
visible characters while the accumulated width stays within
`max_width.saturating_sub(3)`, and on overflow appends `truncSuffix` and
stops. -/
def truncGo (alpha : Char → Bool) (maxW : Nat) (inEsc : Bool) (width : Nat) :
    List Char → List Char
  | [] => []
  | c :: rest =>
    if c = '\x1b' then c :: truncGo alpha maxW true width rest
    else if inEsc then
      if alpha c then c :: truncGo alpha maxW false width rest
      else c :: truncGo alpha maxW true width rest
    else if maxW - 3 < width + charWidth c then truncSuffix
    else c :: truncGo alpha maxW false (width + charWidth c) rest

/-- The width-budgeted part of `truncate_to_terminal_width`
(main.rs lines 210–240): identity fast path when the text already fits,
otherwise the truncation loop from scratch. -/
def truncate_to_width (alpha : Char → Bool) (text : List Char) (max_width : Nat) :
    List Char :=
  if visible_width alpha text ≤ max_width then text
  else truncGo alpha max_width false 0 text

/-- `usize::MAX` on the 64-bit targets the program is built for. -/
def USIZE_MAX : Nat := 2 ^ 64 - 1

/-- The budget computation of `truncate_to_terminal_width`
(main.rs lines 199–208): `min(term_width * percent / 100,
term_width.saturating_sub(40))` when a terminal width was detected, the
hardcoded fallback `72` otherwise. The `usize` product `term_width * percent`
wraps modulo `2^64` (release-build semantics; a debug build would panic on
the same inputs), and `saturating_sub` is `Nat` subtraction. -/
def compute_max_width : Option Nat → Nat → Nat
  | some term_width, percent =>
      min (term_width * percent % (USIZE_MAX + 1) / 100) (term_width - 40)
  | none, _ => 72

/-! ## Terminal-width resolver (src/main.rs lines 171–195)

The three probes performed by `get_terminal_width` are `IO` actions; their
outcomes are modelled by an environment record. -/

/-- Outcome of the system queries made by `get_terminal_width`:
whether stderr is attached to a terminal, the width reported by
`terminal_size_of(stderr)`, the raw value of the `COLUMNS` environment
variable, and the width reported by `terminal_size()` (the stdout probe). -/
structure WidthEnv where
  stderr_is_terminal : Bool
  stderr_terminal_size : Option Nat
  columns_var : Option (List Char)
  stdout_terminal_size : Option Nat

/-- Rust's `str::parse::<usize>` on a 64-bit target: an optional leading
`'+'` followed by one or more ASCII digits, rejected (`PosOverflow`) when the
value exceeds `usize::MAX`. -/
def parse_usize (s : List Char) : Option Nat :=
  let digits := match s with
    | '+' :: rest => rest
    | _ => s
  if digits ≠ [] ∧ digits.all Char.isDigit then
    let v := digits.foldl (fun n c => 10 * n + (c.toNat - '0'.toNat)) 0
    if v ≤ USIZE_MAX then some v else none
  else none

/-- `get_terminal_width` (main.rs lines 171–195): stderr's terminal width if
stderr is a live terminal, else a parseable `COLUMNS` value, else the stdout
terminal-size query, else nothing. -/
def get_terminal_width (env : WidthEnv) : Option Nat :=
  match (if env.stderr_is_terminal then env.stderr_terminal_size else none) with
  | some w => some w
  | none =>
    match env.columns_var.bind parse_usize with
    | some w => some w
    | none => env.stdout_terminal_size

/-- `truncate_to_terminal_width` (main.rs lines 198–241): resolve the
terminal width, compute the budget, truncate. -/
def truncate_to_terminal_width (alpha : Char → Bool) (env : WidthEnv)
    (text : List Char) (percent : Nat) : List Char :=
  truncate_to_width alpha text (compute_max_width (get_terminal_width env) percent)

/-! ## Directory segment (src/core/segments/directory.rs) -/

/-- UTF-8 byte length of a string, modelling Rust's `str::len`. -/
def byteLen (s : List Char) : Nat :=
  (s.map Char.utf8Size).sum

/-- `path.trim_end_matches(['/', '\\'])` (directory.rs line 28). -/
def trimEndSeps (s : List Char) : List Char :=
  (s.reverse.dropWhile (fun c => c = '/' || c = '\\')).reverse

/-- `s.split(sep).next_back().unwrap_or("")` (directory.rs lines 34–35):
the piece of `s` after its last occurrence of `sep`; the whole of `s` when
`sep` does not occur. -/
def afterLast (sep : Char) (s : List Char) : List Char :=
  (s.reverse.takeWhile (fun c => c ≠ sep)).reverse

/-- Per-segment configuration of the directory segment (directory.rs line 5). -/
structure DirectorySegment where
  show_full_path : Bool

/-- `DirectorySegment::extract_directory_name` (directory.rs lines 26–54).
Length comparisons are Rust's byte-length comparisons (`str::len`). -/
def DirectorySegment.extract_directory_name (path : List Char) : List Char :=
  let trimmed := trimEndSeps path
  if byteLen trimmed = 2 ∧ trimmed.get? 1 = some ':' then
    trimmed ++ ['\\']
  else
    let unix_name := afterLast '/' path
    let windows_name := afterLast '\\' path
    let result :=
      if byteLen windows_name < byteLen path then windows_name
      else if byteLen unix_name < byteLen path then unix_name
      else path
    if result = [] then "root".toList else result

/-- `InputData.workspace` — the only field the core reads. -/
structure Workspace where
  current_dir : List Char

/-- The slice of `InputData` consumed by the directory segment. -/
structure InputData where
  workspace : Workspace

/-- `SegmentData` (primary, secondary, metadata); the `HashMap` metadata is
modelled as an association list. -/
structure SegmentData where
  primary : List Char
  secondary : List Char
  metadata : List (List Char × List Char)

/-- `DirectorySegment::collect` (directory.rs lines 58–77). -/
def DirectorySegment.collect (seg : DirectorySegment) (input : InputData) :
    Option SegmentData :=
  let current_dir := input.workspace.current_dir
  let dir_name :=
    if seg.show_full_path then current_dir
    else DirectorySegment.extract_directory_name current_dir
  some { primary := dir_name
         secondary := []
         metadata := [("full_path".toList, current_dir)] }

/-! ## Lemmas about the path helpers -/

theorem trimEndSeps_eq_rdropWhile (s : List Char) :
    trimEndSeps s = s.rdropWhile (fun c => c = '/' || c = '\\') := rfl

theorem afterLast_eq_rtakeWhile (sep : Char) (s : List Char) :
    afterLast sep s = s.rtakeWhile (fun c => c ≠ sep) := rfl

theorem trimEndSeps_idem (s : List Char) :
    trimEndSeps (trimEndSeps s) = trimEndSeps s := by
  simp only [trimEndSeps_eq_rdropWhile]
  exact List.rdropWhile_idempotent _ _

theorem afterLast_suffix (sep : Char) (s : List Char) : afterLast sep s <:+ s := by
  rw [afterLast_eq_rtakeWhile]
  exact List.rtakeWhile_suffix _ _

theorem byteLen_append (a b : List Char) :
    byteLen (a ++ b) = byteLen a + byteLen b := by
  simp [byteLen]

theorem byteLen_pos_iff (v : List Char) : 0 < byteLen v ↔ 0 < v.length := by
  cases v with
  | nil => simp [byteLen]
  | cons c w =>
    simp only [byteLen, List.map_cons, List.sum_cons, List.length_cons]
    have := Char.utf8Size_pos c
    omega

/-- For a suffix, the byte-length comparison against the whole string agrees
with the character-count comparison (both detect a proper suffix). -/
theorem byteLen_lt_iff_of_suffix {u s : List Char} (h : u <:+ s) :
    byteLen u < byteLen s ↔ u.length < s.length := by
  obtain ⟨v, rfl⟩ := h
  rw [byteLen_append, List.length_append]
  have := byteLen_pos_iff v
  omega

/-! ## Spec-side renditions of the directory-name algorithm (claim C4) -/

/-- The directory-name algorithm exactly as claim C4 words it: the drive-root
test asks for *exactly two characters* with the second a colon. Written from
the specification's words, to be compared with the source-derived
`DirectorySegment.extract_directory_name`. -/
def extractDirClaim (path : List Char) : List Char :=
  let trimmed := trimEndSeps path
  if trimmed.length = 2 ∧ trimmed.get? 1 = some ':' then
    trimmed ++ ['\\']
  else
    let windows_name := afterLast '\\' path
    let unix_name := afterLast '/' path
    let result :=
      if windows_name.length < path.length then windows_name
      else if unix_name.length < path.length then unix_name
      else path
    if result = [] then "root".toList else result

/-- Amended drive-root test: the stripped path is exactly two characters, the
first occupying one UTF-8 byte, the second a colon — equivalently, Rust's
two-*byte* test on the stripped path. -/
def isDriveRootAmended (q : List Char) : Bool :=
  match q with
  | [c, d] => c.utf8Size == 1 && d == ':'
  | _ => false

/-- Claim C4 as amended: identical to `extractDirClaim` except that the
drive-root test is the two-byte test `isDriveRootAmended`. -/
def extractDirAmended (path : List Char) : List Char :=
  let trimmed := trimEndSeps path
  if isDriveRootAmended trimmed then
    trimmed ++ ['\\']
  else
    let windows_name := afterLast '\\' path
    let unix_name := afterLast '/' path
    let result :=
      if windows_name.length < path.length then windows_name
      else if unix_name.length < path.length then unix_name
      else path
    if result = [] then "root".toList else result

/-- Rust's byte-level drive-root condition coincides with the amended
two-character condition. -/
theorem drive_cond_iff (q : List Char) :
    (byteLen q = 2 ∧ q.get? 1 = some ':') ↔ isDriveRootAmended q = true := by
  match q with
  | [] => simp [byteLen, isDriveRootAmended]
  | [c] => simp [byteLen, isDriveRootAmended]
  | [c, d] =>
    simp only [isDriveRootAmended, byteLen, List.map_cons, List.map_nil, List.sum_cons,
      List.sum_nil, Bool.and_eq_true, beq_iff_eq, List.get?]
    constructor
    · rintro ⟨h1, h2⟩
      obtain rfl : d = ':' := by injection h2
      have hc : (':' : Char).utf8Size = 1 := by decide
      exact ⟨by omega, rfl⟩
    · rintro ⟨h1, rfl⟩
      have hc : (':' : Char).utf8Size = 1 := by decide
      exact ⟨by omega, rfl⟩
  | c :: d :: e :: rest =>
    simp only [isDriveRootAmended, byteLen, List.map_cons, List.sum_cons]
    have := Char.utf8Size_pos c
    have := Char.utf8Size_pos d
    have := Char.utf8Size_pos e
    constructor
    · rintro ⟨h1, -⟩
      omega
    · intro h
      cases h


/-! ## Claims about the directory-name algorithm -/

/-- Counterexample for C1 as stated: `"a/"` ends in a separator, yet
`extract_directory_name "a/" = "root"` while
`extract_directory_name "a" = "a"` — the code strips trailing separators only
for the drive-root check and then splits the unstripped path. -/
theorem claim_C1_cex :
    trimEndSeps "a/".toList = "a".toList ∧
    DirectorySegment.extract_directory_name "a/".toList = "root".toList ∧
    DirectorySegment.extract_directory_name (trimEndSeps "a/".toList) = "a".toList ∧
    DirectorySegment.extract_directory_name "a/".toList ≠
      DirectorySegment.extract_directory_name (trimEndSeps "a/".toList) := by
  refine ⟨by decide, by decide, by decide, by decide⟩

/-- **C1 (amended).** For every path `p` ending in one or more separators of
either kind, `extract_directory_name p = extract_directory_name (strip p)`
holds when the stripped path is a bare drive letter (two UTF-8 bytes, the
second a colon); in general trailing separators are stripped only for the
drive-root check. -/
theorem claim_C1 (p : List Char) (_hsep : trimEndSeps p ≠ p)
    (hdrive : byteLen (trimEndSeps p) = 2 ∧ (trimEndSeps p).get? 1 = some ':') :
    DirectorySegment.extract_directory_name p =
      DirectorySegment.extract_directory_name (trimEndSeps p) := by
  simp only [DirectorySegment.extract_directory_name, trimEndSeps_idem]
  rw [if_pos hdrive, if_pos hdrive]

/-- Witness for C1 at `p = "D:/"`. -/
theorem claim_C1_witness :
    trimEndSeps "D:/".toList ≠ "D:/".toList ∧
    (byteLen (trimEndSeps "D:/".toList) = 2 ∧
      (trimEndSeps "D:/".toList).get? 1 = some ':') ∧
    DirectorySegment.extract_directory_name "D:/".toList =
      DirectorySegment.extract_directory_name (trimEndSeps "D:/".toList) :=
  ⟨by decide, by decide, claim_C1 _ (by decide) (by decide)⟩

/-- Counterexample for C4 as stated: on `"é:"` (two characters, three UTF-8
bytes) the code skips the drive-root branch (`str::len` counts bytes) and
returns `"é:"`, while the claim's two-*character* test would return `"é:\"`. -/
theorem claim_C4_cex :
    DirectorySegment.extract_directory_name "é:".toList = "é:".toList ∧
    extractDirClaim "é:".toList = "é:\\".toList ∧
    DirectorySegment.extract_directory_name "é:".toList ≠ extractDirClaim "é:".toList := by
  refine ⟨by decide, by decide, by decide⟩

/-- **C4 (amended).** `extract_directory_name` follows the claimed algorithm
with the drive-root test amended from "exactly two characters" to "exactly
two UTF-8 bytes" (a one-byte character followed by a colon): drive roots are
canonicalised to `"<letter>:\"`, otherwise the after-last-backslash candidate
is preferred when strictly shorter than the path, else the after-last-slash
candidate when strictly shorter, else the whole path, with `"root"`
substituted for an empty result. -/
theorem claim_C4 (p : List Char) :
    DirectorySegment.extract_directory_name p = extractDirAmended p := by
  have hdrive := drive_cond_iff (trimEndSeps p)
  have hw : (byteLen (afterLast '\\' p) < byteLen p) = ((afterLast '\\' p).length < p.length) :=
    propext (byteLen_lt_iff_of_suffix (afterLast_suffix _ _))
  have hu : (byteLen (afterLast '/' p) < byteLen p) = ((afterLast '/' p).length < p.length) :=
    propext (byteLen_lt_iff_of_suffix (afterLast_suffix _ _))
  by_cases h1 : byteLen (trimEndSeps p) = 2 ∧ (trimEndSeps p).get? 1 = some ':'
  · simp only [DirectorySegment.extract_directory_name, extractDirAmended]
    rw [if_pos h1, if_pos (hdrive.mp h1)]
  · simp only [DirectorySegment.extract_directory_name, extractDirAmended, hw, hu]
    rw [if_neg h1, if_neg (fun h => h1 (hdrive.mpr h))]

/-! ## Basic lemmas about the width-engine scan -/

theorem vwGo_nil (alpha : Char → Bool) (inEsc : Bool) : vwGo alpha inEsc [] = 0 := rfl

theorem vwGo_cons (alpha : Char → Bool) (inEsc : Bool) (c : Char) (rest : List Char) :
    vwGo alpha inEsc (c :: rest) =
      (if c = '\x1b' then 0 else if inEsc then 0 else charWidth c)
        + vwGo alpha (escStep alpha inEsc c) rest := by
  cases inEsc <;> by_cases h : c = '\x1b' <;> by_cases h2 : alpha c <;>
    simp [vwGo, escStep, h, h2]

theorem escStateAfter_nil (alpha : Char → Bool) (inEsc : Bool) :
    escStateAfter alpha inEsc [] = inEsc := rfl

theorem escStateAfter_cons (alpha : Char → Bool) (inEsc : Bool) (c : Char)
    (rest : List Char) :
    escStateAfter alpha inEsc (c :: rest) =
      escStateAfter alpha (escStep alpha inEsc c) rest := rfl

theorem escStateAfter_append (alpha : Char → Bool) (inEsc : Bool)
    (xs ys : List Char) :
    escStateAfter alpha inEsc (xs ++ ys) =
      escStateAfter alpha (escStateAfter alpha inEsc xs) ys := by
  simp [escStateAfter, List.foldl_append]

theorem vwGo_append (alpha : Char → Bool) (xs ys : List Char) : ∀ inEsc : Bool,
    vwGo alpha inEsc (xs ++ ys) =
      vwGo alpha inEsc xs + vwGo alpha (escStateAfter alpha inEsc xs) ys := by
  induction xs with
  | nil => intro s; simp [vwGo, escStateAfter_nil]
  | cons c rest ih =>
    intro s
    rw [List.cons_append, vwGo_cons, vwGo_cons, escStateAfter_cons, ih]
    omega

theorem truncSuffix_eq : truncSuffix = ['.', '.', '.', '\x1b', '[', '0', 'm'] := rfl

theorem vwGo_truncSuffix (alpha : Char → Bool)
    (hb : alpha '[' = false) (h0 : alpha '0' = false) :
    vwGo alpha false truncSuffix = 3 := by
  rw [truncSuffix_eq]
  cases hm : alpha 'm' <;> simp [vwGo, charWidth, hb, h0, hm]

theorem escStateAfter_truncSuffix (alpha : Char → Bool)
    (hb : alpha '[' = false) (h0 : alpha '0' = false) (hm : alpha 'm' = true) :
    escStateAfter alpha false truncSuffix = false := by
  rw [truncSuffix_eq]
  simp [escStateAfter, escStep, hb, h0, hm]

/-! ## Step lemmas for the two scans -/

theorem truncGo_cons_esc (alpha : Char → Bool) (maxW width : Nat) (inEsc : Bool)
    (rest : List Char) :
    truncGo alpha maxW inEsc width ('\x1b' :: rest) =
      '\x1b' :: truncGo alpha maxW true width rest := by
  simp [truncGo]

theorem vwGo_cons_esc (alpha : Char → Bool) (inEsc : Bool) (xs : List Char) :
    vwGo alpha inEsc ('\x1b' :: xs) = vwGo alpha true xs := by
  simp [vwGo]

theorem truncGo_cons_inesc (alpha : Char → Bool) (maxW width : Nat) (c : Char)
    (rest : List Char) (hc : c ≠ '\x1b') :
    truncGo alpha maxW true width (c :: rest) =
      c :: truncGo alpha maxW (if alpha c then false else true) width rest := by
  by_cases h2 : alpha c <;> simp [truncGo, hc, h2]

theorem vwGo_cons_inesc (alpha : Char → Bool) (c : Char) (xs : List Char)
    (hc : c ≠ '\x1b') :
    vwGo alpha true (c :: xs) = vwGo alpha (if alpha c then false else true) xs := by
  by_cases h2 : alpha c <;> simp [vwGo, hc, h2]

theorem truncGo_cons_vis_over (alpha : Char → Bool) (maxW width : Nat) (c : Char)
    (rest : List Char) (hc : c ≠ '\x1b')
    (hover : maxW - 3 < width + charWidth c) :
    truncGo alpha maxW false width (c :: rest) = truncSuffix := by
  simp [truncGo, hc, hover]

theorem truncGo_cons_vis_copy (alpha : Char → Bool) (maxW width : Nat) (c : Char)
    (rest : List Char) (hc : c ≠ '\x1b')
    (hfit : ¬ (maxW - 3 < width + charWidth c)) :
    truncGo alpha maxW false width (c :: rest) =
      c :: truncGo alpha maxW false (width + charWidth c) rest := by
  simp [truncGo, hc, hfit]

theorem vwGo_cons_vis (alpha : Char → Bool) (c : Char) (xs : List Char)
    (hc : c ≠ '\x1b') :
    vwGo alpha false (c :: xs) = charWidth c + vwGo alpha false xs := by
  simp [vwGo, hc]

/-- Inside an escape, a run of non-alphabetic characters contributes no
visible width (an unterminated escape consumes the rest of the string). -/
theorem vwGo_true_nonalpha (alpha : Char → Bool) :
    ∀ body : List Char, (∀ c ∈ body, alpha c = false) → vwGo alpha true body = 0 := by
  intro body
  induction body with
  | nil => intro _; rfl
  | cons c rest ih =>
    intro h
    by_cases hc : c = '\x1b'
    · subst hc
      rw [vwGo_cons_esc]
      exact ih fun x hx => h x (List.mem_cons_of_mem _ hx)
    · rw [vwGo_cons_inesc _ _ _ hc, h c (List.mem_cons_self c rest)]
      simpa using ih fun x hx => h x (List.mem_cons_of_mem _ hx)

/-- Inside an escape, the state machine stays in the escape across a run of
non-alphabetic characters. -/
theorem escStateAfter_true_nonalpha (alpha : Char → Bool) :
    ∀ body : List Char, (∀ c ∈ body, alpha c = false) →
      escStateAfter alpha true body = true := by
  intro body
  induction body with
  | nil => intro _; rfl
  | cons c rest ih =>
    intro h
    rw [escStateAfter_cons]
    have hstep : escStep alpha true c = true := by
      by_cases hc : c = '\x1b' <;> simp [escStep, hc, h c (List.mem_cons_self c rest)]
    rw [hstep]
    exact ih fun x hx => h x (List.mem_cons_of_mem _ hx)

/-- The truncation loop copies an in-escape run of non-alphabetic characters
verbatim (escape sequences never count against the budget and are never cut). -/
theorem truncGo_true_nonalpha (alpha : Char → Bool) (maxW : Nat) :
    ∀ (body : List Char) (width : Nat), (∀ c ∈ body, alpha c = false) →
      truncGo alpha maxW true width body = body := by
  intro body
  induction body with
  | nil => intro _ _; rfl
  | cons c rest ih =>
    intro width h
    by_cases hc : c = '\x1b'
    · subst hc
      rw [truncGo_cons_esc]
      rw [ih width fun x hx => h x (List.mem_cons_of_mem _ hx)]
    · rw [truncGo_cons_inesc _ _ _ _ _ hc, h c (List.mem_cons_self c rest)]
      simp only [Bool.false_eq_true, if_false]
      rw [ih width fun x hx => h x (List.mem_cons_of_mem _ hx)]

/-- Outside escapes, `vwGo` is the sum of the per-character widths. -/
theorem vwGo_no_esc (alpha : Char → Bool) :
    ∀ t : List Char, '\x1b' ∉ t → vwGo alpha false t = (t.map charWidth).sum := by
  intro t
  induction t with
  | nil => intro _; rfl
  | cons c rest ih =>
    intro h
    have hc : c ≠ '\x1b' := fun hh => h (hh ▸ List.mem_cons_self c rest)
    rw [vwGo_cons_vis _ _ _ hc, List.map_cons, List.sum_cons,
      ih fun hh => h (List.mem_cons_of_mem _ hh)]

theorem sum_charWidth_latin1 :
    ∀ t : List Char, (∀ c ∈ t, c.toNat ≤ 0xFF) → (t.map charWidth).sum = t.length := by
  intro t
  induction t with
  | nil => intro _; rfl
  | cons c rest ih =>
    intro h
    have h1 : charWidth c = 1 := by
      have hcc := h c (List.mem_cons_self c rest)
      unfold charWidth
      rw [if_neg (by omega)]
    rw [List.map_cons, List.sum_cons, h1, ih fun x hx => h x (List.mem_cons_of_mem _ hx),
      List.length_cons]
    omega

/-! ## Invariants of the truncation loop -/

/-- The visible width of whatever the truncation loop produces, measured from
the loop's own state, stays within the budget whenever the accumulated width
does. -/
theorem truncGo_vw_le (alpha : Char → Bool) (maxW : Nat)
    (h3 : 3 ≤ maxW) (hb : alpha '[' = false) (h0 : alpha '0' = false) :
    ∀ (t : List Char) (inEsc : Bool) (width : Nat), width ≤ maxW - 3 →
      vwGo alpha inEsc (truncGo alpha maxW inEsc width t) + width ≤ maxW := by
  intro t
  induction t with
  | nil =>
    intro inEsc width hw
    simp only [truncGo, vwGo]
    omega
  | cons c rest ih =>
    intro inEsc width hw
    by_cases hc : c = '\x1b'
    · subst hc
      rw [truncGo_cons_esc, vwGo_cons_esc]
      exact ih true width hw
    · cases inEsc with
      | true =>
        rw [truncGo_cons_inesc _ _ _ _ _ hc, vwGo_cons_inesc _ _ _ hc]
        exact ih _ width hw
      | false =>
        by_cases hover : maxW - 3 < width + charWidth c
        · rw [truncGo_cons_vis_over _ _ _ _ _ hc hover]
          have h5 : vwGo alpha false truncSuffix = 3 := vwGo_truncSuffix alpha hb h0
          omega
        · rw [truncGo_cons_vis_copy _ _ _ _ _ hc hover, vwGo_cons_vis _ _ _ hc]
          have h6 := ih false (width + charWidth c) (by omega)
          omega

/-- Shape of the truncation loop's output: either it cut (the output is a
prefix of the input, cut outside any escape, followed by the fixed suffix) or
it copied the whole input, in which case the input's remaining visible width
fits under `maxW - 3`. -/
theorem truncGo_shape (alpha : Char → Bool) (maxW : Nat) :
    ∀ (t : List Char) (inEsc : Bool) (width : Nat), width ≤ maxW - 3 →
      (∃ k, truncGo alpha maxW inEsc width t = t.take k ++ truncSuffix ∧
        escStateAfter alpha inEsc (t.take k) = false) ∨
      (truncGo alpha maxW inEsc width t = t ∧
        vwGo alpha inEsc t + width ≤ maxW - 3) := by
  intro t
  induction t with
  | nil =>
    intro inEsc width hw
    right
    exact ⟨rfl, by simpa [vwGo] using hw⟩
  | cons c rest ih =>
    intro inEsc width hw
    by_cases hc : c = '\x1b'
    · subst hc
      rw [truncGo_cons_esc]
      rcases ih true width hw with ⟨k, he, hst⟩ | ⟨he, hv⟩
      · left
        refine ⟨k + 1, ?_, ?_⟩
        · rw [List.take_succ_cons, List.cons_append, he]
        · rw [List.take_succ_cons, escStateAfter_cons]
          simpa [escStep] using hst
      · right
        refine ⟨by rw [he], ?_⟩
        rw [vwGo_cons_esc]
        exact hv
    · cases inEsc with
      | true =>
        rw [truncGo_cons_inesc _ _ _ _ _ hc]
        rcases ih (if alpha c then false else true) width hw with ⟨k, he, hst⟩ | ⟨he, hv⟩
        · left
          refine ⟨k + 1, ?_, ?_⟩
          · rw [List.take_succ_cons, List.cons_append, he]
          · rw [List.take_succ_cons, escStateAfter_cons]
            have hstep : escStep alpha true c = if alpha c then false else true := by
              simp [escStep, hc]
            rw [hstep]
            exact hst
        · right
          refine ⟨by rw [he], ?_⟩
          rw [vwGo_cons_inesc _ _ _ hc]
          exact hv
      | false =>
        by_cases hover : maxW - 3 < width + charWidth c
        · left
          refine ⟨0, ?_, ?_⟩
          · rw [truncGo_cons_vis_over _ _ _ _ _ hc hover]
            simp
          · simp [escStateAfter_nil]
        · rw [truncGo_cons_vis_copy _ _ _ _ _ hc hover]
          rcases ih false (width + charWidth c) (by omega) with ⟨k, he, hst⟩ | ⟨he, hv⟩
          · left
            refine ⟨k + 1, ?_, ?_⟩
            · rw [List.take_succ_cons, List.cons_append, he]
            · rw [List.take_succ_cons, escStateAfter_cons]
              have hstep : escStep alpha false c = false := by simp [escStep, hc]
              rw [hstep]
              exact hst
          · right
            refine ⟨by rw [he], ?_⟩
            rw [vwGo_cons_vis _ _ _ hc]
            omega

/-! ## Claim theorems: width engine -/

/-- **C2.** For every text `t` and budget `w ≥ 4`, the visible width of the
truncation of `t` to `w` is at most `w`, and the appended ellipsis-plus-reset
suffix contributes exactly 3 visible columns. The two `alpha` hypotheses are
facts of Rust's `char::is_alphabetic` ('[' and '0' are not alphabetic). -/
theorem claim_C2 (alpha : Char → Bool) (t : List Char) (w : Nat)
    (h4 : 4 ≤ w) (hb : alpha '[' = false) (h0 : alpha '0' = false) :
    visible_width alpha (truncate_to_width alpha t w) ≤ w ∧
    vwGo alpha false truncSuffix = 3 := by
  refine ⟨?_, vwGo_truncSuffix alpha hb h0⟩
  by_cases hfit : visible_width alpha t ≤ w
  · simp [truncate_to_width, hfit]
  · have h := truncGo_vw_le alpha w (by omega) hb h0 t false 0 (by omega)
    simp only [truncate_to_width, if_neg hfit]
    simpa [visible_width] using h

/-- Witness for C2 at `t = "abcdefgh"`, `w = 4`, `alpha = Char.isAlpha`. -/
theorem claim_C2_witness :
    ((4 : Nat) ≤ 4 ∧ Char.isAlpha '[' = false ∧ Char.isAlpha '0' = false) ∧
    (visible_width Char.isAlpha
        (truncate_to_width Char.isAlpha "abcdefgh".toList 4) ≤ 4 ∧
      vwGo Char.isAlpha false truncSuffix = 3) :=
  ⟨by decide, claim_C2 Char.isAlpha "abcdefgh".toList 4 (by decide) (by decide) (by decide)⟩

/-- **C3.** Whenever truncation actually occurs (`visible_width t > w`), the
result is a prefix of the input followed by the fixed suffix `"...\x1b[0m"`,
and the escape-scan state at the end of the result is closed (every ESC in
the output has found an alphabetic terminator; the cut never splits an escape
sequence). The `alpha` hypotheses are facts of Rust's `char::is_alphabetic`. -/
theorem claim_C3 (alpha : Char → Bool) (t : List Char) (w : Nat)
    (htr : w < visible_width alpha t)
    (hb : alpha '[' = false) (h0 : alpha '0' = false) (hm : alpha 'm' = true) :
    t.take ((truncate_to_width alpha t w).length - 7) ++ truncSuffix
        = truncate_to_width alpha t w ∧
    escStateAfter alpha false (truncate_to_width alpha t w) = false := by
  have hnf : ¬ visible_width alpha t ≤ w := by omega
  rcases truncGo_shape alpha w t false 0 (by omega) with ⟨k, he, hst⟩ | ⟨he, hv⟩
  · have hres : truncate_to_width alpha t w = t.take k ++ truncSuffix := by
      simp only [truncate_to_width, if_neg hnf]
      exact he
    constructor
    · rw [hres]
      have hlen : (t.take k ++ truncSuffix).length - 7 = (t.take k).length := by
        simp [truncSuffix_eq]
      rw [hlen]
      congr 1
      rw [List.length_take, List.take_eq_take]
      omega
    · rw [hres, escStateAfter_append, hst]
      exact escStateAfter_truncSuffix alpha hb h0 hm
  · exfalso
    rw [visible_width] at htr
    omega

/-- Witness for C3 at `t = "abcdefghij"`, `w = 5`, `alpha = Char.isAlpha`. -/
theorem claim_C3_witness :
    5 < visible_width Char.isAlpha "abcdefghij".toList ∧
    ("abcdefghij".toList.take
          ((truncate_to_width Char.isAlpha "abcdefghij".toList 5).length - 7)
        ++ truncSuffix = truncate_to_width Char.isAlpha "abcdefghij".toList 5 ∧
      escStateAfter Char.isAlpha false
        (truncate_to_width Char.isAlpha "abcdefghij".toList 5) = false) :=
  ⟨by decide, claim_C3 Char.isAlpha "abcdefghij".toList 5 (by decide) (by decide)
    (by decide) (by decide)⟩

/-- **C5.** `visible_width` sums per-character widths outside escapes
(2 above U+00FF, else 1); on escape-free text it is the per-character width
sum, on escape-free Latin-1 text it is the character count, and a whole
escape sequence (ESC, a non-alphabetic body, an alphabetic terminator)
contributes zero. -/
theorem claim_C5 (alpha : Char → Bool) (t body rest : List Char) (term : Char)
    (hne : '\x1b' ∉ t) (hlat : ∀ c ∈ t, c.toNat ≤ 0xFF)
    (hbody : ∀ c ∈ body, alpha c = false)
    (hterm : alpha term = true) (hterm2 : term ≠ '\x1b') :
    visible_width alpha t = (t.map charWidth).sum ∧
    visible_width alpha t = t.length ∧
    visible_width alpha ('\x1b' :: (body ++ term :: rest)) = visible_width alpha rest := by
  refine ⟨vwGo_no_esc alpha t hne, ?_, ?_⟩
  · rw [visible_width, vwGo_no_esc alpha t hne]
    exact sum_charWidth_latin1 t hlat
  · rw [visible_width, vwGo_cons_esc, vwGo_append,
      escStateAfter_true_nonalpha alpha body hbody,
      vwGo_true_nonalpha alpha body hbody,
      vwGo_cons_inesc _ _ _ hterm2, hterm]
    simp [visible_width]

/-- Witness for C5 at `t = "ab"`, escape `ESC [3 m` before `"xy"`. -/
theorem claim_C5_witness :
    ('\x1b' ∉ "ab".toList ∧ (∀ c ∈ "ab".toList, c.toNat ≤ 0xFF) ∧
      (∀ c ∈ "[3".toList, Char.isAlpha c = false) ∧
      Char.isAlpha 'm' = true ∧ 'm' ≠ '\x1b') ∧
    (visible_width Char.isAlpha "ab".toList = ("ab".toList.map charWidth).sum ∧
      visible_width Char.isAlpha "ab".toList = "ab".toList.length ∧
      visible_width Char.isAlpha ('\x1b' :: ("[3".toList ++ 'm' :: "xy".toList)) =
        visible_width Char.isAlpha "xy".toList) :=
  ⟨by decide, claim_C5 Char.isAlpha "ab".toList "[3".toList "xy".toList 'm'
    (by decide) (by decide) (by decide) (by decide) (by decide)⟩

/-- **C9.** The scans are total functions of their input (they are defined by
structural recursion over the character list), and an ESC followed only by
non-alphabetic characters keeps the scan in the in-escape state through the
end of the string: the unterminated remainder contributes zero visible width,
and the truncation loop copies it verbatim without stopping. -/
theorem claim_C9 (alpha : Char → Bool) (pre body : List Char)
    (maxW width : Nat) (inEsc : Bool)
    (hbody : ∀ c ∈ body, alpha c = false) :
    visible_width alpha (pre ++ '\x1b' :: body) = visible_width alpha pre ∧
    truncGo alpha maxW inEsc width ('\x1b' :: body) = '\x1b' :: body := by
  constructor
  · rw [visible_width, vwGo_append]
    have h1 : vwGo alpha (escStateAfter alpha false pre) ('\x1b' :: body) = 0 := by
      rw [vwGo_cons_esc]
      exact vwGo_true_nonalpha alpha body hbody
    rw [h1, visible_width]
    omega
  · rw [truncGo_cons_esc, truncGo_true_nonalpha alpha maxW body width hbody]

/-- Witness for C9 with the unterminated escape `ESC [31` after `"ab"`. -/
theorem claim_C9_witness :
    (∀ c ∈ "[31".toList, Char.isAlpha c = false) ∧
    (visible_width Char.isAlpha ("ab".toList ++ '\x1b' :: "[31".toList) =
        visible_width Char.isAlpha "ab".toList ∧
      truncGo Char.isAlpha 10 false 0 ('\x1b' :: "[31".toList) =
        '\x1b' :: "[31".toList) :=
  ⟨by decide, claim_C9 Char.isAlpha "ab".toList "[31".toList 10 0 false (by decide)⟩

/-! ## Claim theorems: fast path, budget computation, resolver, segment -/

/-- **C6.** For every text `t`, if `visible_width t ≤ max_width` then truncation
returns `t` unchanged (identity fast path); in particular truncating `t` to
budget `visible_width t` leaves the visible width unchanged. -/
theorem claim_C6 (alpha : Char → Bool) (t : List Char) (w : Nat) :
    (visible_width alpha t ≤ w → truncate_to_width alpha t w = t) ∧
    visible_width alpha (truncate_to_width alpha t (visible_width alpha t)) =
      visible_width alpha t := by
  constructor
  · intro h; simp [truncate_to_width, h]
  · simp [truncate_to_width]

/-- Witness for C6 at `t = "abc"`, `w = 5`. -/
theorem claim_C6_witness :
    visible_width Char.isAlpha "abc".toList ≤ 5 ∧
    truncate_to_width Char.isAlpha "abc".toList 5 = "abc".toList ∧
    visible_width Char.isAlpha (truncate_to_width Char.isAlpha "abc".toList
        (visible_width Char.isAlpha "abc".toList)) =
      visible_width Char.isAlpha "abc".toList :=
  ⟨by decide, (claim_C6 Char.isAlpha "abc".toList 5).1 (by decide),
    (claim_C6 Char.isAlpha "abc".toList 5).2⟩

/-- Counterexample for C7 as stated: at detected width `2^63` (reachable,
since `COLUMNS` parses into a full `usize`) and the program's percentage 60,
the `usize` product wraps to 0, so the budget is 0 rather than the exact
`min(W * 60 / 100, W - 40)` the claim asserts for every detected width. -/
theorem claim_C7_cex :
    compute_max_width (some 9223372036854775808) 60 = 0 ∧
    min (9223372036854775808 * 60 / 100) (9223372036854775808 - 40)
        = 5534023222112865484 ∧
    compute_max_width (some 9223372036854775808) 60
      ≠ min (9223372036854775808 * 60 / 100) (9223372036854775808 - 40) := by
  refine ⟨by decide, by decide, by decide⟩

/-- **C7 (amended).** The truncation budget is
`min((W * P mod 2^64) / 100, W - 40)` — the product is `usize`
multiplication, wrapping in a release build — with the subtraction saturating
at `0` (stated over `ℤ` to make the saturation explicit); this coincides with
the claimed exact `min(W * P / 100, W - 40)` whenever the product `W * P`
does not overflow. The budget is `72` when no terminal width is detected
(60% of an assumed 120-column terminal), and `truncate_to_terminal_width`
feeds exactly this budget to the width engine. -/
theorem claim_C7 (W P : Nat) (alpha : Char → Bool) (env : WidthEnv) (t : List Char)
    (hnof : W * P < 2 ^ 64) :
    (compute_max_width (some W) P : Int)
        = min ((W * P / 100 : Nat) : Int) (max ((W : Int) - 40) 0) ∧
    compute_max_width none P = 72 ∧
    (120 * 60 / 100 : Nat) = 72 ∧
    truncate_to_terminal_width alpha env t P
      = truncate_to_width alpha t (compute_max_width (get_terminal_width env) P) := by
  refine ⟨?_, rfl, by norm_num, rfl⟩
  have hmod : W * P % (USIZE_MAX + 1) = W * P := by
    apply Nat.mod_eq_of_lt
    have h64 : USIZE_MAX + 1 = 2 ^ 64 := by norm_num [USIZE_MAX]
    omega
  simp only [compute_max_width, hmod]
  omega

/-- Witness for C7 at `W = 100`, `P = 60` (non-overflowing product). -/
theorem claim_C7_witness :
    100 * 60 < 2 ^ 64 ∧
    ((compute_max_width (some 100) 60 : Int)
        = min ((100 * 60 / 100 : Nat) : Int) (max ((100 : Int) - 40) 0) ∧
      compute_max_width none 60 = 72 ∧
      (120 * 60 / 100 : Nat) = 72 ∧
      truncate_to_terminal_width Char.isAlpha ⟨false, none, none, none⟩ [] 60
        = truncate_to_width Char.isAlpha []
            (compute_max_width (get_terminal_width ⟨false, none, none, none⟩) 60)) :=
  ⟨by decide,
    claim_C7 100 60 Char.isAlpha ⟨false, none, none, none⟩ [] (by decide)⟩

/-- **C8.** Terminal-width resolution tries stderr's terminal size (only when
stderr is a live terminal), then a parseable `COLUMNS` value (regardless of
the earlier liveness check), then the stdout terminal-size query with no
liveness requirement, returning nothing only when all three fail.
A `COLUMNS` value that fails to parse as a `usize` — including a numeral
above `usize::MAX`, which `str::parse` rejects as `PosOverflow` — falls
through to the stdout probe. -/
theorem claim_C8 (env : WidthEnv) (w : Nat) :
    (env.stderr_is_terminal = true → env.stderr_terminal_size = some w →
      get_terminal_width env = some w) ∧
    ((env.stderr_is_terminal = false ∨ env.stderr_terminal_size = none) →
      env.columns_var.bind parse_usize = some w →
      get_terminal_width env = some w) ∧
    ((env.stderr_is_terminal = false ∨ env.stderr_terminal_size = none) →
      env.columns_var.bind parse_usize = none →
      get_terminal_width env = env.stdout_terminal_size) := by
  obtain ⟨it, ssz, cv, osz⟩ := env
  refine ⟨fun h1 h2 => ?_, fun h1 h2 => ?_, fun h1 h2 => ?_⟩ <;>
    cases it <;> cases ssz <;> cases cv <;> simp_all [get_terminal_width]

/-- Witness for C8: each of the three resolution stages at a concrete
environment, including the fall-through on a `COLUMNS` value above
`usize::MAX` (`2^64` does not parse, so the stdout probe wins). -/
theorem claim_C8_witness :
    get_terminal_width ⟨true, some 80, some "100".toList, some 50⟩ = some 80 ∧
    get_terminal_width ⟨true, none, some "100".toList, some 50⟩ = some 100 ∧
    get_terminal_width ⟨false, some 80, none, some 50⟩ = some 50 ∧
    get_terminal_width
        ⟨false, none, some "18446744073709551616".toList, some 50⟩ = some 50 :=
  ⟨(claim_C8 ⟨true, some 80, some "100".toList, some 50⟩ 80).1 rfl rfl,
   (claim_C8 ⟨true, none, some "100".toList, some 50⟩ 100).2.1 (Or.inr rfl) (by decide),
   (claim_C8 ⟨false, some 80, none, some 50⟩ 50).2.2 (Or.inl rfl) rfl,
   (claim_C8 ⟨false, none, some "18446744073709551616".toList, some 50⟩ 50).2.2
     (Or.inl rfl) (by decide)⟩

/-- **C10.** `DirectorySegment::collect` always returns exactly one
`SegmentData`: primary is the raw path in full-path mode and the extracted
basename otherwise, secondary is empty, and metadata maps `"full_path"` to
the original path; concretely, `/home/alice/dev/myproj` in short-name mode
yields primary `"myproj"`. -/
theorem claim_C10 (sfp : Bool) (input : InputData) :
    (∃ d, DirectorySegment.collect ⟨sfp⟩ input = some d ∧
      d.primary = (if sfp then input.workspace.current_dir
        else DirectorySegment.extract_directory_name input.workspace.current_dir) ∧
      d.secondary = [] ∧
      d.metadata.lookup "full_path".toList = some input.workspace.current_dir) ∧
    (∃ d, DirectorySegment.collect ⟨false⟩ ⟨⟨"/home/alice/dev/myproj".toList⟩⟩ = some d ∧
      d.primary = "myproj".toList ∧ d.secondary = [] ∧
      d.metadata.lookup "full_path".toList = some "/home/alice/dev/myproj".toList) := by
  constructor
  · exact ⟨_, rfl, rfl, rfl, rfl⟩
  · exact ⟨_, rfl, by decide, rfl, rfl⟩

end CCometixLine
